import Mathlib

/-!
Verification of the `BinaryTree<T>` container from `src/BinaryTree.hpp`.

The C++ class owns a pointer tree (`Node<T>* root`) plus an `int treeSize`
counter.  Nodes are exclusively owned (the destructor frees the subtree), no
aliasing is possible through the public interface, so the heap structure is
embedded shallowly as an inductive binary tree and the object state as a
(root, treeSize) pair.  Every operation of the class is translated to a pure
function on that state, following the C++ control flow: the breadth-first
loops over `std::queue<Node<T>*>` become tail-recursive functions over an
explicit list used as a FIFO queue, and a mutation performed through a node
pointer becomes a functional update at the path (list of left/right steps)
that identifies the node, which the scan returns in place of the pointer.
-/

namespace BinaryTree

/-- A step from a node to one of its children (`left` / `right` pointer). -/
inductive Dir where
  | L : Dir
  | R : Dir
deriving DecidableEq, Repr

/-- The pointer structure reachable from a `Node<T>*`: `leaf` is `nullptr`,
`node v l r` is a `Node` holding `v` with child pointers `l` and `r`. -/
inductive BTree (α : Type) where
  | leaf : BTree α
  | node : α → BTree α → BTree α → BTree α
deriving DecidableEq, Repr

variable {α : Type}

/-- Number of nodes reachable from a pointer (reference notion used by the
spec's size invariant; the C++ code has no such function). -/
def count : BTree α → Nat
  | .leaf => 0
  | .node _ l r => count l + count r + 1

/-- `true` for a non-null pointer. -/
def isNode : BTree α → Bool
  | .leaf => false
  | .node _ _ _ => true

/-- Reference membership predicate: some reachable node stores `x`. -/
def containsB [DecidableEq α] (x : α) : BTree α → Bool
  | .leaf => false
  | .node v l r => decide (v = x) || containsB x l || containsB x r

/-- The private fields of `BinaryTree<T>`: `Node<T>* root` and `int treeSize`. -/
structure TreeState (α : Type) where
  root : BTree α
  treeSize : Int
deriving DecidableEq, Repr

/-- `BinaryTree()` : root(nullptr), treeSize(0). -/
def emptyState : TreeState α := ⟨.leaf, 0⟩

/-- `int size()` : returns treeSize. -/
def size (s : TreeState α) : Int := s.treeSize

/-- `bool empty()` : returns treeSize == 0. -/
def emptyQ (s : TreeState α) : Bool := s.treeSize == 0

/-- The subtree reached from `t` by following `p` (`leaf` once a null pointer
is crossed). -/
def subtreeAt : BTree α → List Dir → BTree α
  | t, [] => t
  | .leaf, _ :: _ => .leaf
  | .node _ l _, .L :: p => subtreeAt l p
  | .node _ _ r, .R :: p => subtreeAt r p

/-- The value stored at the node reached by `p`, if a node is there. -/
def valueAt : BTree α → List Dir → Option α
  | .leaf, _ => none
  | .node v _ _, [] => some v
  | .node _ l _, .L :: p => valueAt l p
  | .node _ _ r, .R :: p => valueAt r p

/-- Writing a freshly allocated `new Node<T>(x)` into the null child slot
reached by `p` (the pure rendering of `currentNode->left/right = new Node`). -/
def placeAt : BTree α → List Dir → α → BTree α
  | .leaf, [], x => .node x .leaf .leaf
  | .node v l r, .L :: p, x => .node v (placeAt l p x) r
  | .node v l r, .R :: p, x => .node v l (placeAt r p x)
  | t, _, _ => t

/-- Overwriting the element of the node reached by `p`
(`deleteNode->element = ...`). -/
def setVal : BTree α → List Dir → α → BTree α
  | .node _ l r, [], v => .node v l r
  | .node w l r, .L :: p, v => .node w (setVal l p v) r
  | .node w l r, .R :: p, v => .node w l (setVal r p v)
  | .leaf, _, _ => .leaf

/-- Clearing the child pointer that leads to the node at `p`
(`deepestParent->right/left = nullptr; delete deleteNode`). -/
def removeAt : BTree α → List Dir → BTree α
  | _, [] => .leaf
  | .node v l r, .L :: p => .node v (removeAt l p) r
  | .node v l r, .R :: p => .node v l (removeAt r p)
  | .leaf, _ :: _ => .leaf

/-- `p` leads through existing nodes and ends exactly at a null pointer:
the shape of a valid insertion position. -/
def okP : BTree α → List Dir → Prop
  | .leaf, [] => True
  | .node _ _ _, [] => False
  | .leaf, _ :: _ => False
  | .node _ l _, .L :: p => okP l p
  | .node _ _ r, .R :: p => okP r p

/-- Total node count of the trees held in a queue (termination measure for
the breadth-first loops). -/
def qMeasure (q : List (List Dir × BTree α)) : Nat :=
  (q.map fun e => count e.2).sum

/-- Result of the scanning loop inside `insert`: a duplicate was seen
(`return`), a null child slot was found (`break`, with the path of the slot),
or the queue ran dry (the loop's fall-through exit, unreachable in fact). -/
inductive ScanRes where
  | dup : ScanRes
  | slot : List Dir → ScanRes
  | exhausted : ScanRes
deriving DecidableEq, Repr

/-- The `while(!treeQueue.empty())` loop of `BinaryTree<T>::insert`
(src/BinaryTree.hpp:271-300): pop `currentNode`; if its left child exists and
equals the element, return (duplicate); if the left child is null, the new
node goes there (break); symmetrically for the right child; otherwise push
both children and continue.  Queue entries carry the path of the node in
place of the `Node<T>*`. -/
def insertScan [DecidableEq α] (x : α) : List (List Dir × BTree α) → ScanRes
  | [] => .exhausted
  | (_, .leaf) :: q => insertScan x q
  | (p, .node _ l r) :: q =>
    match l with
    | .leaf => .slot (p ++ [Dir.L])
    | .node lv ll lr =>
      if lv = x then .dup
      else
        match r with
        | .leaf => .slot (p ++ [Dir.R])
        | .node rv rl rr =>
          if rv = x then .dup
          else
            insertScan x
              (q ++ [(p ++ [Dir.L], .node lv ll lr), (p ++ [Dir.R], .node rv rl rr)])
termination_by q => 2 * qMeasure q + q.length
decreasing_by
  · simp [qMeasure]; omega
  · simp [qMeasure, count]; omega

/-- `void insert(const T element)` (src/BinaryTree.hpp:258-304): empty tree
gets the element as root; a root equal to the element is a no-op; otherwise
the scan either detects a duplicate (no-op), or yields the first null slot in
level order, where the node is placed; `treeSize++` runs on every path that
falls out of the loop. -/
def insert [DecidableEq α] (s : TreeState α) (x : α) : TreeState α :=
  match s.root with
  | .leaf => ⟨.node x .leaf .leaf, s.treeSize + 1⟩
  | .node v l r =>
    if v = x then s
    else
      match insertScan x [([], BTree.node v l r)] with
      | .dup => s
      | .slot p => ⟨placeAt s.root p x, s.treeSize + 1⟩
      | .exhausted => ⟨s.root, s.treeSize + 1⟩

/-- Push of a child pointer onto the search queue: only non-null children are
pushed (src/BinaryTree.hpp:335-338). -/
def pushNode (c : BTree α) : List (BTree α) :=
  match c with
  | .leaf => []
  | t => [t]

theorem pushNode_count (c : BTree α) : ((pushNode c).map count).sum = count c := by
  cases c <;> simp [pushNode, count]

theorem pushNode_length (c : BTree α) : (pushNode c).length ≤ 1 := by
  cases c <;> simp [pushNode]

/-- The queue loop of `bool bfsearch(const T&)` (src/BinaryTree.hpp:326-340). -/
def bfsearchAux [DecidableEq α] (x : α) : List (BTree α) → Bool
  | [] => false
  | .leaf :: q => bfsearchAux x q
  | .node v l r :: q =>
    if v = x then true
    else bfsearchAux x (q ++ pushNode l ++ pushNode r)
termination_by q => 2 * (q.map count).sum + q.length
decreasing_by
  · simp; omega
  · simp [pushNode_count, count]
    have hl := pushNode_length l
    have hr := pushNode_length r
    omega

/-- `bool bfsearch(const T& element)` (src/BinaryTree.hpp:315-344). -/
def bfsearch [DecidableEq α] (s : TreeState α) (x : α) : Bool :=
  match s.root with
  | .leaf => false
  | .node v l r => bfsearchAux x [BTree.node v l r]

/-- Node count of the right child (termination measure component for the
inorder stack loop). -/
def rsz : BTree α → Nat
  | .leaf => 0
  | .node _ _ r => count r

/-- Termination measure of the `dfsearch` loop: the left spine still to be
pushed plus, for every stacked node, its right subtree and its own visit. -/
def dMeasure (st : List (BTree α)) (cur : BTree α) : Nat :=
  2 * count cur + (st.map fun t => 2 * rsz t + 1).sum

/-- The `while(!treeStack.empty() || currentNode != nullptr)` loop of
`bool dfsearch(const T&)` (src/BinaryTree.hpp:368-384): slide down the left
spine pushing nodes; on a null current, pop, test the popped element, and
continue with its right child. -/
def dfsearchLoop [DecidableEq α] (x : α) : List (BTree α) → BTree α → Bool
  | st, .node v l r => dfsearchLoop x (.node v l r :: st) l
  | [], .leaf => false
  | .node v _ r :: st, .leaf =>
    if v = x then true else dfsearchLoop x st r
  | .leaf :: st, .leaf => dfsearchLoop x st .leaf
termination_by st cur => dMeasure st cur
decreasing_by
  all_goals (simp [dMeasure, count, rsz] <;> omega)

/-- `bool dfsearch(const T& element)` (src/BinaryTree.hpp:357-388): the stack
starts holding the root and the walk starts at `root->left`. -/
def dfsearch [DecidableEq α] (s : TreeState α) (x : α) : Bool :=
  match s.root with
  | .leaf => false
  | .node v l r => dfsearchLoop x [BTree.node v l r] l

/-- What the `remove` scan records about a visited node: its position (in
place of the `Node<T>*`), its element, and its two child pointers. -/
structure Entry (α : Type) where
  path : List Dir
  val : α
  l : BTree α
  r : BTree α
deriving DecidableEq, Repr

/-- `e.l` or `e.r` is a non-null pointer: the test
`currentNode->left != nullptr || currentNode->right != nullptr`
(src/BinaryTree.hpp:417). -/
def hasChildB (e : Entry α) : Bool := isNode e.l || isNode e.r

/-- Push of one child onto the breadth-first queue: only non-null children
are pushed (src/BinaryTree.hpp:420-423). -/
def pushChild (p : List Dir) (d : Dir) (c : BTree α) : List (List Dir × BTree α) :=
  match c with
  | .leaf => []
  | t => [(p ++ [d], t)]

/-- The queue entries a popped node contributes. -/
def children (p : List Dir) (t : BTree α) : List (List Dir × BTree α) :=
  match t with
  | .leaf => []
  | .node _ l r => pushChild p Dir.L l ++ pushChild p Dir.R r

/-- The full breadth-first enumeration performed by the single scan of
`remove` (src/BinaryTree.hpp:408-424): nodes are emitted in pop order, and
each node's non-null children are appended to the queue. -/
def lvl : List (List Dir × BTree α) → List (Entry α)
  | [] => []
  | (_, .leaf) :: q => lvl q
  | (p, .node v l r) :: q => ⟨p, v, l, r⟩ :: lvl (q ++ children p (.node v l r))
termination_by q => 2 * qMeasure q + q.length
decreasing_by
  · simp [qMeasure]; omega
  · simp [qMeasure, count, children, pushChild]
    cases l <;> cases r <;> simp [count] <;> omega

/-- Level-order enumeration of a whole tree, queue seeded with the root. -/
def levelOrder (t : BTree α) : List (Entry α) := lvl [([], t)]

/-- The child of the deepest parent that `remove` excises: the right child if
present, else the left child (src/BinaryTree.hpp:435-446), as an entry. -/
def prefEntry (dp : Entry α) : Entry α :=
  match dp.r with
  | .node v l r => ⟨dp.path ++ [Dir.R], v, l, r⟩
  | .leaf =>
    match dp.l with
    | .node v l r => ⟨dp.path ++ [Dir.L], v, l, r⟩
    | .leaf => dp

/-- `void remove(const T element)` (src/BinaryTree.hpp:396-450).  The scan
records the last visited node equal to the element (`deleteNode`) and the
last visited node owning a child (`deepestParent`).  No match: no-op.  Match
but no parent (single-node tree): `clear()`.  Otherwise the element of the
deepest parent's right (else left) child is copied into the matching node,
that child is excised, and `treeSize--`.  The final (unreachable) arm covers
a deepest parent with two null children, where the C++ would dereference its
null left child. -/
def remove [DecidableEq α] (s : TreeState α) (x : α) : TreeState α :=
  match s.root with
  | .leaf => s
  | .node v l r =>
    let scan := lvl [([], BTree.node v l r)]
    match (scan.filter fun e => decide (e.val = x)).getLast? with
    | none => s
    | some del =>
      match (scan.filter hasChildB).getLast? with
      | none => ⟨.leaf, 0⟩
      | some dp =>
        match dp.r with
        | .node rv _ _ =>
          ⟨removeAt (setVal s.root del.path rv) (dp.path ++ [Dir.R]), s.treeSize - 1⟩
        | .leaf =>
          match dp.l with
          | .node lv _ _ =>
            ⟨removeAt (setVal s.root del.path lv) (dp.path ++ [Dir.L]), s.treeSize - 1⟩
          | .leaf => s

/-- `void clear()` (src/BinaryTree.hpp:458-463). -/
def clearS (_s : TreeState α) : TreeState α := ⟨.leaf, 0⟩

/-- `int getDepth(const Node<T>*, const T&, int)` (src/BinaryTree.hpp:605-616). -/
def getDepth [DecidableEq α] (t : BTree α) (x : α) (d : Int) : Int :=
  match t with
  | .leaf => -1
  | .node v l r =>
    if v = x then d
    else
      let leftDepth := getDepth l x (d + 1)
      let rightDepth := getDepth r x (d + 1)
      if leftDepth < rightDepth then rightDepth else leftDepth

/-- `int depth(const T& element)` (src/BinaryTree.hpp:497-509). -/
def depth [DecidableEq α] (s : TreeState α) (x : α) : Int :=
  match s.root with
  | .leaf => -1
  | .node v l r =>
    if v = x then 0
    else
      let leftDepth := getDepth l x 1
      let rightDepth := getDepth r x 1
      if leftDepth < rightDepth then rightDepth else leftDepth

/-- `int getHeight(const Node<T>*, const T&, int, bool)`
(src/BinaryTree.hpp:629-645). -/
def getHeight [DecidableEq α] (t : BTree α) (x : α) (h : Int) (found : Bool) : Int :=
  match t with
  | .leaf => if !found then -1 else h
  | .node v l r =>
    let h2 := if found then h + 1 else h
    let found2 := if found then found else decide (v = x)
    let leftHeight := getHeight l x h2 found2
    let rightHeight := getHeight r x h2 found2
    if leftHeight < rightHeight then rightHeight else leftHeight

/-- `int height(const T& element)` (src/BinaryTree.hpp:519-525). -/
def height [DecidableEq α] (s : TreeState α) (x : α) : Int :=
  match s.root with
  | .leaf => -1
  | .node v l r => getHeight (.node v l r) x 0 false

/-- `void invert(Node<T>*)` (src/BinaryTree.hpp:654-665): swap the children,
then recurse into the new left (old right) and new right (old left). -/
def invert : BTree α → BTree α
  | .leaf => .leaf
  | .node v l r => .node v (invert r) (invert l)

/-- `void invertTree()` (src/BinaryTree.hpp:533-536). -/
def invertTree (s : TreeState α) : TreeState α := ⟨invert s.root, s.treeSize⟩

/-- The per-node copy done by the copy constructor's clone loop
(src/BinaryTree.hpp:152-186).  The C++ walks the source in level order only
to fix the allocation order of the fresh nodes; each source node yields one
new node with the same element and the same (eventual) child shape, which is
what this structural copy expresses — allocation order is unobservable in a
pure embedding. -/
def copyTree : BTree α → BTree α
  | .leaf => .leaf
  | .node v l r => .node v (copyTree l) (copyTree r)

/-- `BinaryTree(const BinaryTree<T>&)` (src/BinaryTree.hpp:152-186).  The
clone loop seeds `copyTreeQueue` with `copyTree.root` without a null check
(line 161) and immediately dereferences `copyNode->element` (line 171): on
an empty source this is a null-pointer dereference — the constructor
crashes, modelled as `none`.  On a nonempty source the loop clones the node
graph, one fresh node and one `treeSize++` per source node. -/
def copyCtor (s : TreeState α) : Option (TreeState α) :=
  match s.root with
  | .leaf => none
  | .node v l r =>
    some ⟨copyTree (.node v l r), (count (BTree.node v l r) : Int)⟩

/-- `BinaryTree(BinaryTree<T>&&)` (src/BinaryTree.hpp:196-231): the same
level-order clone (moving each element), then `moveTree.clear()`.  It has
the same unchecked dereference of the null root on an empty source
(lines 205, 215), modelled as `none`.  On a nonempty source it returns
(destination, source-after-move). -/
def moveCtor (s : TreeState α) : Option (TreeState α × TreeState α) :=
  match s.root with
  | .leaf => none
  | .node v l r =>
    some (⟨copyTree (.node v l r), (count (BTree.node v l r) : Int)⟩, ⟨.leaf, 0⟩)

/-- Modelled from the spec (§3, §8): the complete binary tree holding the
elements of `xs` in level order with no gaps, in array/heap layout — the
node of index `i` stores `xs[i]` and has the nodes of indices `2i+1` and
`2i+2` as children.  Reference shape for the structural-completeness claims;
the C++ code has no such constructor. -/
def fromListAux (xs : List α) (i : Nat) : BTree α :=
  if h : i < xs.length then
    .node xs[i] (fromListAux xs (2 * i + 1)) (fromListAux xs (2 * i + 2))
  else
    .leaf
termination_by xs.length - i

/-- The complete level-order tree of a list, from the root. -/
def fromList (xs : List α) : BTree α := fromListAux xs 0

/-- The root path of the node of heap index `k` (`0` is the root, `2i+1` and
`2i+2` are the children of `i`). -/
def pathOfIdx : Nat → List Dir
  | 0 => []
  | k + 1 => pathOfIdx (k / 2) ++ [if k % 2 = 0 then Dir.L else Dir.R]
termination_by k => k
decreasing_by omega

/-- The heap index reached from index `i` by following a path. -/
def idxFrom (i : Nat) : List Dir → Nat
  | [] => i
  | .L :: p => idxFrom (2 * i + 1) p
  | .R :: p => idxFrom (2 * i + 2) p

/-- The queue of the `insert` scan over a complete tree after the nodes
`0, …, i-1` have been popped: the indices `i, …, min(2i+1, n)-1`. -/
def win (xs : List α) (i : Nat) : List (List Dir × BTree α) :=
  (List.range' i (min (2 * i + 1) xs.length - i)).map fun k => (pathOfIdx k, fromListAux xs k)

/-- The tree states reachable through the public interface, starting from a
default-constructed tree.  A copy or move construction contributes states
only when it completes (a crashing run — empty source — produces none). -/
inductive Reachable [DecidableEq α] : TreeState α → Prop where
  | empty : Reachable emptyState
  | insert {s} (x : α) : Reachable s → Reachable (insert s x)
  | remove {s} (x : α) : Reachable s → Reachable (remove s x)
  | clear {s} : Reachable s → Reachable (clearS s)
  | invert {s} : Reachable s → Reachable (invertTree s)
  | copy {s b} : Reachable s → copyCtor s = some b → Reachable b
  | moveDst {s d m} : Reachable s → moveCtor s = some (d, m) → Reachable d
  | moveSrc {s d m} : Reachable s → moveCtor s = some (d, m) → Reachable m

/-- The spec's size-consistency invariant (§3, §8): the counter equals the
number of reachable nodes, `empty()` answers `size() == 0`, and the root is
null exactly on size zero. -/
def Inv (s : TreeState α) : Prop :=
  s.treeSize = (count s.root : Int) ∧
    (emptyQ s = true ↔ size s = 0) ∧ (s.root = .leaf ↔ size s = 0)

/-! ### Small list facts not packaged in this Mathlib version -/

theorem getLast?_mem' {β : Type _} : ∀ {l : List β} {a : β}, l.getLast? = some a → a ∈ l
  | [], _, h => by simp at h
  | [b], a, h => by simp_all
  | b :: c :: l, a, h => by
    rw [List.getLast?_cons_cons] at h
    exact List.mem_cons_of_mem _ (getLast?_mem' h)

theorem getLast?_ne_none {β : Type _} {l : List β} {a : β} (h : l.getLast? = some a) :
    l ≠ [] := by
  intro hl; subst hl; simp at h

/-! ### Path and count lemmas -/

@[simp]
theorem subtreeAt_nil (t : BTree α) : subtreeAt t [] = t := by
  cases t <;> rfl

@[simp]
theorem subtreeAt_leaf (q : List Dir) : subtreeAt (.leaf : BTree α) q = .leaf := by
  cases q with
  | nil => rfl
  | cons d q => cases d <;> rfl

theorem subtreeAt_append (t : BTree α) (p q : List Dir) :
    subtreeAt t (p ++ q) = subtreeAt (subtreeAt t p) q := by
  induction p generalizing t with
  | nil => simp
  | cons d p ih =>
    cases t with
    | leaf => cases d <;> simp [subtreeAt]
    | node v l r => cases d <;> simp [subtreeAt, ih]

theorem count_eq_zero {t : BTree α} : count t = 0 ↔ t = .leaf := by
  cases t <;> simp [count]

theorem count_setVal (t : BTree α) (p : List Dir) (v : α) :
    count (setVal t p v) = count t := by
  induction p generalizing t with
  | nil => cases t <;> simp [setVal, count]
  | cons d p ih => cases t <;> cases d <;> simp [setVal, count, ih]

theorem count_pos_of_subtree {t : BTree α} {q : List Dir} {v : α} {l r : BTree α}
    (h : subtreeAt t q = .node v l r) : 1 ≤ count t := by
  induction q generalizing t with
  | nil => simp at h; subst h; simp [count]
  | cons d q ih =>
    cases t with
    | leaf => simp at h
    | node w a b => simp [count]

theorem count_removeAt {t : BTree α} {q : List Dir} {w : α}
    (h : subtreeAt t q = .node w .leaf .leaf) :
    count (removeAt t q) + 1 = count t := by
  induction q generalizing t with
  | nil =>
    simp at h; subst h; simp [removeAt, count]
  | cons d q ih =>
    cases t with
    | leaf => cases d <;> simp [subtreeAt] at h
    | node v a b =>
      cases d with
      | L =>
        simp [subtreeAt] at h
        have := ih h
        simp [removeAt, count]; omega
      | R =>
        simp [subtreeAt] at h
        have := ih h
        simp [removeAt, count]; omega

theorem subtreeAt_setVal_single {t : BTree α} {q : List Dir} {w : α}
    (h : subtreeAt t q = .node w .leaf .leaf) (p : List Dir) (v : α) :
    ∃ w', subtreeAt (setVal t p v) q = .node w' .leaf .leaf := by
  induction q generalizing t p with
  | nil =>
    simp at h; subst h
    cases p with
    | nil => exact ⟨v, rfl⟩
    | cons d p => cases d <;> exact ⟨w, by cases p <;> rfl⟩
  | cons d q ih =>
    have hne : ∃ a l r, t = BTree.node a l r := by
      cases t
      · cases d <;> simp [subtreeAt] at h
      · exact ⟨_, _, _, rfl⟩
    obtain ⟨a, l, r, rfl⟩ := hne
    cases p with
    | nil =>
      cases d <;> simp [subtreeAt, setVal] at h ⊢ <;> exact ⟨w, h⟩
    | cons d' p =>
      cases d <;> cases d' <;> simp [subtreeAt, setVal] at h ⊢
      · exact ih h p
      · exact ⟨w, h⟩
      · exact ⟨w, h⟩
      · exact ih h p

theorem okP_left_of_subtree {t : BTree α} {p : List Dir} {v : α} {r : BTree α}
    (h : subtreeAt t p = .node v .leaf r) : okP t (p ++ [Dir.L]) := by
  induction p generalizing t with
  | nil => simp at h; subst h; simp [okP]
  | cons d p ih =>
    cases t with
    | leaf => cases d <;> simp [subtreeAt] at h
    | node w a b => cases d <;> simp [subtreeAt] at h <;> simpa [okP] using ih h

theorem okP_right_of_subtree {t : BTree α} {p : List Dir} {v : α} {l : BTree α}
    (h : subtreeAt t p = .node v l .leaf) : okP t (p ++ [Dir.R]) := by
  induction p generalizing t with
  | nil => simp at h; subst h; simp [okP]
  | cons d p ih =>
    cases t with
    | leaf => cases d <;> simp [subtreeAt] at h
    | node w a b => cases d <;> simp [subtreeAt] at h <;> simpa [okP] using ih h

theorem count_placeAt {t : BTree α} {p : List Dir} (h : okP t p) (x : α) :
    count (placeAt t p x) = count t + 1 := by
  induction p generalizing t with
  | nil =>
    cases t with
    | leaf => simp [placeAt, count]
    | node v l r => simp [okP] at h
  | cons d p ih =>
    cases t with
    | leaf => cases d <;> simp [okP] at h
    | node v l r => cases d <;> simp [okP] at h <;> simp [placeAt, count, ih h] <;> omega

/-! ### Decomposition of the level-order scan into levels -/

/-- One level of expansion: every queue entry replaced by its pushed children. -/
def expand : List (List Dir × BTree α) → List (List Dir × BTree α)
  | [] => []
  | (p, t) :: q => children p t ++ expand q

/-- The entries the scan emits for the queue's own elements (null pointers
skipped). -/
def lvlHeads : List (List Dir × BTree α) → List (Entry α)
  | [] => []
  | (_, .leaf) :: q => lvlHeads q
  | (p, .node v l r) :: q => ⟨p, v, l, r⟩ :: lvlHeads q

/-- Number of non-null entries in a queue. -/
def nodesIn (q : List (List Dir × BTree α)) : Nat :=
  q.countP fun e => isNode e.2

/-- The queue pair corresponding to an entry. -/
def toPair (e : Entry α) : List Dir × BTree α := (e.path, .node e.val e.l e.r)

theorem getLast?_cons_of_ne {β : Type _} {l : List β} (a : β) (h : l ≠ []) :
    (a :: l).getLast? = l.getLast? := by
  cases l with
  | nil => exact absurd rfl h
  | cons b l => exact List.getLast?_cons_cons

theorem lvl_split (q r : List (List Dir × BTree α)) :
    lvl (q ++ r) = lvlHeads q ++ lvl (r ++ expand q) := by
  induction q generalizing r with
  | nil => simp [lvlHeads, expand]
  | cons e q ih =>
    obtain ⟨p, t⟩ := e
    cases t with
    | leaf =>
      simp only [List.cons_append, lvl, lvlHeads, expand, children, List.nil_append]
      exact ih r
    | node v l r0 =>
      simp only [List.cons_append, lvl, lvlHeads, expand]
      rw [List.append_assoc q r, ih (r ++ children p (BTree.node v l r0)),
        List.append_assoc]

theorem lvl_eq (q : List (List Dir × BTree α)) :
    lvl q = lvlHeads q ++ lvl (expand q) := by
  simpa using lvl_split q []

theorem pushChild_mem {p : List Dir} {d : Dir} {c : BTree α}
    {e : List Dir × BTree α} (h : e ∈ pushChild p d c) :
    e = (p ++ [d], c) ∧ isNode c = true := by
  cases c with
  | leaf => simp [pushChild] at h
  | node v l r =>
    simp [pushChild] at h
    simp [h, isNode]

theorem expand_isNode : ∀ {q : List (List Dir × BTree α)} {e : List Dir × BTree α},
    e ∈ expand q → isNode e.2 = true := by
  intro q
  induction q with
  | nil => intro e h; simp [expand] at h
  | cons pr q ih =>
    obtain ⟨p, t⟩ := pr
    intro e h
    simp only [expand, List.mem_append] at h
    rcases h with h | h
    · cases t with
      | leaf => simp [children] at h
      | node v l r =>
        simp only [children, List.mem_append] at h
        rcases h with h | h
        · rw [(pushChild_mem h).1]; exact (pushChild_mem h).2
        · rw [(pushChild_mem h).1]; exact (pushChild_mem h).2
    · exact ih h

theorem qMeasure_append (a b : List (List Dir × BTree α)) :
    qMeasure (a ++ b) = qMeasure a + qMeasure b := by
  simp [qMeasure]

theorem qMeasure_pushChild (p : List Dir) (d : Dir) (c : BTree α) :
    qMeasure (pushChild p d c) = count c := by
  cases c <;> simp [pushChild, qMeasure, count]

theorem qMeasure_children (p : List Dir) (v : α) (l r : BTree α) :
    qMeasure (children p (.node v l r)) = count l + count r := by
  simp [children, qMeasure_append, qMeasure_pushChild]

theorem qMeasure_expand (q : List (List Dir × BTree α)) :
    qMeasure (expand q) + nodesIn q = qMeasure q := by
  induction q with
  | nil => simp [expand, nodesIn, qMeasure]
  | cons pr q ih =>
    obtain ⟨p, t⟩ := pr
    cases t with
    | leaf =>
      simpa [expand, children, nodesIn, List.countP_cons, isNode, qMeasure, count] using ih
    | node v l r =>
      have hq : qMeasure (expand ((p, BTree.node v l r) :: q))
          = count l + count r + qMeasure (expand q) := by
        simp [expand, qMeasure_append, qMeasure_children]
      have hn : nodesIn ((p, BTree.node v l r) :: q) = nodesIn q + 1 := by
        simp [nodesIn, List.countP_cons, isNode]
      have hm : qMeasure ((p, BTree.node v l r) :: q)
          = count l + count r + 1 + qMeasure q := by
        simp [qMeasure, count]; try omega
      omega

theorem nodesIn_pos_of_expand_ne {q : List (List Dir × BTree α)}
    (h : expand q ≠ []) : 1 ≤ nodesIn q := by
  induction q with
  | nil => simp [expand] at h
  | cons pr q ih =>
    obtain ⟨p, t⟩ := pr
    cases t with
    | leaf =>
      simp only [expand, children, List.nil_append] at h
      simpa [nodesIn, List.countP_cons, isNode] using ih h
    | node v l r => simp [nodesIn, List.countP_cons, isNode]

theorem lvlHeads_ne_nil_of {q : List (List Dir × BTree α)}
    (h : ∃ pr ∈ q, isNode pr.2 = true) : lvlHeads q ≠ [] := by
  induction q with
  | nil => simp at h
  | cons pr q ih =>
    obtain ⟨p, t⟩ := pr
    cases t with
    | leaf =>
      refine ih ?_
      obtain ⟨e, he, hn⟩ := h
      rcases List.mem_cons.mp he with rfl | he
      · simp [isNode] at hn
      · exact ⟨e, he, hn⟩
    | node v l r => simp [lvlHeads]

theorem lvl_ne_nil_of_allNodes {q : List (List Dir × BTree α)} (hq : q ≠ [])
    (hall : ∀ e ∈ q, isNode e.2 = true) : lvl q ≠ [] := by
  rw [lvl_eq]
  obtain ⟨e, he⟩ := List.exists_mem_of_ne_nil q hq
  have := lvlHeads_ne_nil_of ⟨e, he, hall e he⟩
  intro h0
  exact this (List.append_eq_nil.mp h0).1

theorem expand_nil_iff (q : List (List Dir × BTree α)) :
    expand q = [] ↔ (lvlHeads q).filter hasChildB = [] := by
  induction q with
  | nil => simp [expand, lvlHeads]
  | cons pr q ih =>
    obtain ⟨p, t⟩ := pr
    cases t with
    | leaf => simpa [expand, children, lvlHeads] using ih
    | node v l r =>
      cases l <;> cases r <;>
        simp [expand, children, pushChild, lvlHeads, List.filter_cons,
          hasChildB, isNode, ih]

theorem lvlHeads_getLast :
    ∀ {q : List (List Dir × BTree α)} {pr : List Dir × BTree α},
      (∀ e ∈ q, isNode e.2 = true) → q.getLast? = some pr →
      ∃ v l r, pr.2 = BTree.node v l r ∧ (lvlHeads q).getLast? = some ⟨pr.1, v, l, r⟩ := by
  intro q
  induction q with
  | nil => intro pr _ h; simp at h
  | cons e q ih =>
    intro pr hall h
    cases q with
    | nil =>
      have hpr : pr = e := by
        have h' := h
        simp at h'
        exact h'.symm
      subst hpr
      have hn := hall pr (by simp)
      obtain ⟨p, t⟩ := pr
      cases t with
      | leaf => simp [isNode] at hn
      | node v l r => exact ⟨v, l, r, rfl, by simp [lvlHeads]⟩
    | cons e' q' =>
      rw [List.getLast?_cons_cons] at h
      have hall' : ∀ x ∈ e' :: q', isNode x.2 = true := fun x hx =>
        hall x (List.mem_cons_of_mem _ hx)
      obtain ⟨v, l, r, hvt, hlh⟩ := ih hall' h
      refine ⟨v, l, r, hvt, ?_⟩
      have hhead := hall e (by simp)
      obtain ⟨p, t⟩ := e
      cases t with
      | leaf => simp [isNode] at hhead
      | node w a b =>
        rw [show lvlHeads ((p, BTree.node w a b) :: e' :: q')
            = ⟨p, w, a, b⟩ :: lvlHeads (e' :: q') from rfl]
        rw [getLast?_cons_of_ne _ (lvlHeads_ne_nil_of ⟨e', by simp, hall' e' (by simp)⟩)]
        exact hlh

theorem expand_getLast :
    ∀ {q : List (List Dir × BTree α)} {dp : Entry α},
      ((lvlHeads q).filter hasChildB).getLast? = some dp →
      (expand q).getLast? = some (toPair (prefEntry dp)) := by
  intro q
  induction q with
  | nil => intro dp h; simp [lvlHeads] at h
  | cons pr q ih =>
    obtain ⟨p, t⟩ := pr
    intro dp h
    cases t with
    | leaf =>
      simp only [lvlHeads] at h
      simp only [expand, children, List.nil_append]
      exact ih h
    | node v l r =>
      simp only [lvlHeads, List.filter_cons] at h
      by_cases hF : (lvlHeads q).filter hasChildB = []
      · rw [hF] at h
        have hE : expand q = [] := (expand_nil_iff q).mpr hF
        by_cases hc : hasChildB (⟨p, v, l, r⟩ : Entry α) = true
        · rw [if_pos hc] at h
          simp at h
          subst h
          simp only [expand, hE, List.append_nil]
          cases hr : r with
          | node a b c =>
            simp [children, prefEntry, hr, toPair, pushChild]
          | leaf =>
            cases hl : l with
            | leaf => rw [hasChildB, hl, hr] at hc; simp [isNode] at hc
            | node a b c =>
              simp [children, prefEntry, hr, hl, toPair, pushChild]
        · rw [if_neg hc] at h
          simp at h
      · have hlast : ((lvlHeads q).filter hasChildB).getLast? = some dp := by
          by_cases hc : hasChildB (⟨p, v, l, r⟩ : Entry α) = true
          · rw [if_pos hc, getLast?_cons_of_ne _ hF] at h; exact h
          · rw [if_neg hc] at h; exact h
        have hrec := ih hlast
        have hne : expand q ≠ [] := getLast?_ne_none hrec
        simp only [expand]
        rw [List.getLast?_append_of_ne_nil _ hne]
        exact hrec

/-- The node the scan of `remove` visits last has no children: the level-order
last node is always a leaf. -/
theorem lvl_getLast_childless (q : List (List Dir × BTree α)) (e : Entry α)
    (h : (lvl q).getLast? = some e) : e.l = .leaf ∧ e.r = .leaf := by
  rw [lvl_eq] at h
  by_cases hE : expand q = []
  · rw [hE] at h
    simp only [lvl, List.append_nil] at h
    have he := getLast?_mem' h
    have hf := (expand_nil_iff q).mp hE
    have := List.filter_eq_nil_iff.mp hf e he
    cases hl : e.l <;> cases hr : e.r <;> simp_all [hasChildB, isNode]
  · have hne : lvl (expand q) ≠ [] :=
      lvl_ne_nil_of_allNodes hE fun pr hpr => expand_isNode hpr
    rw [List.getLast?_append_of_ne_nil _ hne] at h
    exact lvl_getLast_childless (expand q) e h
termination_by qMeasure q
decreasing_by
  have h1 := qMeasure_expand q
  have h2 := nodesIn_pos_of_expand_ne hE
  omega

/-- The level-order last node is the preferred (right, else left) child of
the level-order last node that owns a child: the node `remove` excises is the
level-order last node. -/
theorem lvl_getLast_pref (q : List (List Dir × BTree α)) (dp : Entry α)
    (h : ((lvl q).filter hasChildB).getLast? = some dp) :
    (lvl q).getLast? = some (prefEntry dp) := by
  rw [lvl_eq] at h ⊢
  rw [List.filter_append] at h
  by_cases hB : (lvl (expand q)).filter hasChildB = []
  · rw [hB, List.append_nil] at h
    have hsplit : (lvlHeads (expand q)).filter hasChildB = [] ∧
        (lvl (expand (expand q))).filter hasChildB = [] := by
      have hB' := hB
      rw [lvl_eq (expand q), List.filter_append, List.append_eq_nil] at hB'
      exact hB'
    have hE2 : expand (expand q) = [] := (expand_nil_iff _).mpr hsplit.1
    have hEq : lvl (expand q) = lvlHeads (expand q) := by
      rw [lvl_eq (expand q), hE2]
      simp [lvl]
    have hpair := expand_getLast h
    have hne : expand q ≠ [] := getLast?_ne_none hpair
    obtain ⟨v, l, r, hvt, hlh⟩ :=
      lvlHeads_getLast (fun e he => expand_isNode he) hpair
    have hlne : lvlHeads (expand q) ≠ [] := by
      obtain ⟨e, he⟩ := List.exists_mem_of_ne_nil _ hne
      exact lvlHeads_ne_nil_of ⟨e, he, expand_isNode he⟩
    rw [List.getLast?_append_of_ne_nil _ (by rw [hEq]; exact hlne)]
    rw [hEq, hlh]
    simp only [toPair] at hvt hlh ⊢
    have h1 : (prefEntry dp).val = v ∧ (prefEntry dp).l = l ∧ (prefEntry dp).r = r := by
      cases hvt
      exact ⟨rfl, rfl, rfl⟩
    obtain ⟨h1, h2, h3⟩ := h1
    rw [← h1, ← h2, ← h3]
  · have hg : ((lvl (expand q)).filter hasChildB).getLast? = some dp := by
      rw [List.getLast?_append_of_ne_nil _ hB] at h
      exact h
    have hrec := lvl_getLast_pref (expand q) dp hg
    have hne : lvl (expand q) ≠ [] := getLast?_ne_none hrec
    rw [List.getLast?_append_of_ne_nil _ hne]
    exact hrec
termination_by qMeasure q
decreasing_by
  have h1 := qMeasure_expand q
  have h2 : expand q ≠ [] := by
    intro h0
    rw [h0] at hg
    simp [lvl] at hg
  have h3 := nodesIn_pos_of_expand_ne h2
  omega

theorem count_node (v : α) (l r : BTree α) :
    count (BTree.node v l r) = count l + count r + 1 := rfl

theorem qMeasure_cons (pr : List Dir × BTree α) (q : List (List Dir × BTree α)) :
    qMeasure (pr :: q) = count pr.2 + qMeasure q := by
  simp [qMeasure]

theorem children_length (p : List Dir) (t : BTree α) : (children p t).length ≤ 2 := by
  cases t with
  | leaf => simp [children]
  | node v l r => cases l <;> cases r <;> simp [children, pushChild]

/-- Every entry the scan emits describes an actual node of the tree: its path
leads to a node carrying exactly the recorded value and children. -/
theorem lvl_subtree (t : BTree α) :
    ∀ (q : List (List Dir × BTree α)),
      (∀ pr ∈ q, subtreeAt t pr.1 = pr.2) →
      ∀ e ∈ lvl q, subtreeAt t e.path = .node e.val e.l e.r
  | [], _, e, he => by simp [lvl] at he
  | (p, .leaf) :: q, hq, e, he => by
    simp only [lvl] at he
    exact lvl_subtree t q (fun pr hpr => hq pr (List.mem_cons_of_mem _ hpr)) e he
  | (p, .node v l r) :: q, hq, e, he => by
    simp only [lvl] at he
    rcases List.mem_cons.mp he with rfl | he
    · exact hq (p, .node v l r) (by simp)
    · refine lvl_subtree t (q ++ children p (.node v l r)) ?_ e he
      intro pr hpr
      rcases List.mem_append.mp hpr with hpr | hpr
      · exact hq pr (List.mem_cons_of_mem _ hpr)
      · have hp := hq (p, .node v l r) (by simp)
        simp only [children, List.mem_append] at hpr
        rcases hpr with hpr | hpr
        · obtain ⟨rfl, -⟩ := pushChild_mem hpr
          rw [subtreeAt_append, hp]
          simp [subtreeAt]
        · obtain ⟨rfl, -⟩ := pushChild_mem hpr
          rw [subtreeAt_append, hp]
          simp [subtreeAt]
termination_by q => 2 * qMeasure q + q.length
decreasing_by
  · simp [qMeasure]; omega
  · have h1 : qMeasure (q ++ children p (BTree.node v l r))
        = qMeasure q + (count l + count r) := by
      rw [qMeasure_append, qMeasure_children]
    have h2 := children_length p (BTree.node v l r)
    have h3 := qMeasure_cons (p, BTree.node v l r) q
    rw [count_node] at h3
    have h4 := List.length_append q (children p (BTree.node v l r))
    have h5 := List.length_cons (p, BTree.node v l r) q
    omega

theorem containsB_of_subtreeAt [DecidableEq α] {t : BTree α} {p : List Dir}
    {v : α} {l r : BTree α} (h : subtreeAt t p = .node v l r) :
    containsB v t = true := by
  induction p generalizing t with
  | nil => simp at h; subst h; simp [containsB]
  | cons d p ih =>
    cases t with
    | leaf => simp at h
    | node w a b => cases d <;> simp [subtreeAt] at h <;> simp [containsB, ih h]

theorem contains_lvl [DecidableEq α] (x : α) :
    ∀ (q : List (List Dir × BTree α)) (p : List Dir) (t : BTree α),
      (p, t) ∈ q → containsB x t = true → ∃ e ∈ lvl q, e.val = x
  | [], p, t, hm, _ => by simp at hm
  | (p0, .leaf) :: q, p, t, hm, hc => by
    simp only [lvl]
    rcases List.mem_cons.mp hm with heq | hm
    · cases heq
      simp [containsB] at hc
    · exact contains_lvl x q p t hm hc
  | (p0, .node v l r) :: q, p, t, hm, hc => by
    simp only [lvl]
    rcases List.mem_cons.mp hm with heq | hm
    · cases heq
      rw [containsB] at hc
      rcases (Bool.or_eq_true _ _).mp hc with hvl | hcr
      · rcases (Bool.or_eq_true _ _).mp hvl with hv | hcl
        · exact ⟨⟨p0, v, l, r⟩, by simp, of_decide_eq_true hv⟩
        · have hlne : l ≠ BTree.leaf := by
            intro h0; rw [h0] at hcl; simp [containsB] at hcl
          have hmem : (p0 ++ [Dir.L], l) ∈ q ++ children p0 (BTree.node v l r) := by
            refine List.mem_append_right _ ?_
            cases l with
            | leaf => exact absurd rfl hlne
            | node lv ll lr => simp [children, pushChild]
          obtain ⟨e, he, hval⟩ :=
            contains_lvl x (q ++ children p0 (BTree.node v l r)) _ _ hmem hcl
          exact ⟨e, List.mem_cons_of_mem _ he, hval⟩
      · have hrne : r ≠ BTree.leaf := by
          intro h0; rw [h0] at hcr; simp [containsB] at hcr
        have hmem : (p0 ++ [Dir.R], r) ∈ q ++ children p0 (BTree.node v l r) := by
          refine List.mem_append_right _ ?_
          cases r with
          | leaf => exact absurd rfl hrne
          | node rv rl rr => cases l <;> simp [children, pushChild]
        obtain ⟨e, he, hval⟩ :=
          contains_lvl x (q ++ children p0 (BTree.node v l r)) _ _ hmem hcr
        exact ⟨e, List.mem_cons_of_mem _ he, hval⟩
    · obtain ⟨e, he, hval⟩ :=
        contains_lvl x (q ++ children p0 (BTree.node v l r)) p t
          (List.mem_append_left _ hm) hc
      exact ⟨e, List.mem_cons_of_mem _ he, hval⟩
termination_by q => 2 * qMeasure q + q.length
decreasing_by
  all_goals
    first
      | (simp [qMeasure]; omega)
      | (have h1 : qMeasure (q ++ children p0 (BTree.node v l r))
             = qMeasure q + (count l + count r) := by
           rw [qMeasure_append, qMeasure_children]
         have h2 := children_length p0 (BTree.node v l r)
         have h3 := qMeasure_cons (p0, BTree.node v l r) q
         rw [count_node] at h3
         have h4 := List.length_append q (children p0 (BTree.node v l r))
         have h5 := List.length_cons (p0, BTree.node v l r) q
         omega)

/-! ### What remove does -/

theorem levelOrder_inv (t : BTree α) :
    ∀ pr ∈ ([([], t)] : List (List Dir × BTree α)), subtreeAt t pr.1 = pr.2 := by
  intro pr hpr
  rw [List.mem_singleton] at hpr
  subst hpr
  simp

theorem remove_del_some [DecidableEq α] {t : BTree α} {x : α}
    (hc : containsB x t = true) :
    ∃ del, ((levelOrder t).filter fun e => decide (e.val = x)).getLast? = some del := by
  obtain ⟨e, he, hval⟩ := contains_lvl x [([], t)] [] t (by simp) hc
  have hmem : e ∈ (levelOrder t).filter fun e => decide (e.val = x) :=
    List.mem_filter.mpr ⟨he, by simp [hval]⟩
  have hne := List.ne_nil_of_mem hmem
  cases hg : ((levelOrder t).filter fun e => decide (e.val = x)).getLast? with
  | none => exact absurd (List.getLast?_eq_none_iff.mp hg) hne
  | some del => exact ⟨del, rfl⟩

theorem remove_dp_some [DecidableEq α] {v : α} {l r : BTree α}
    (hcount : 1 < count (BTree.node v l r)) :
    ∃ dp, ((levelOrder (BTree.node v l r)).filter hasChildB).getLast? = some dp := by
  have hroot : (⟨[], v, l, r⟩ : Entry α) ∈ levelOrder (BTree.node v l r) := by
    simp only [levelOrder, lvl]
    exact List.mem_cons_self _ _
  have hchild : hasChildB (⟨[], v, l, r⟩ : Entry α) = true := by
    rw [count_node] at hcount
    cases l with
    | node _ _ _ => simp [hasChildB, isNode]
    | leaf =>
      cases r with
      | node _ _ _ => simp [hasChildB, isNode]
      | leaf => simp [count] at hcount
  have hne := List.ne_nil_of_mem (List.mem_filter.mpr ⟨hroot, hchild⟩)
  cases hg : ((levelOrder (BTree.node v l r)).filter hasChildB).getLast? with
  | none => exact absurd (List.getLast?_eq_none_iff.mp hg) hne
  | some dp => exact ⟨dp, rfl⟩

theorem remove_filter_nil [DecidableEq α] {t : BTree α} {x : α}
    (hc : containsB x t = false) :
    (levelOrder t).filter (fun e => decide (e.val = x)) = [] := by
  apply List.filter_eq_nil_iff.mpr
  intro e he
  simp only [decide_eq_true_eq]
  intro hex
  have hsub := lvl_subtree t [([], t)] (levelOrder_inv t) e he
  have hcontains := containsB_of_subtreeAt hsub
  rw [hex, hc] at hcontains
  cases hcontains

/-- `remove` of an element that is not in the tree leaves the state
untouched. -/
theorem remove_not_contains [DecidableEq α] (s : TreeState α) (x : α)
    (hc : containsB x s.root = false) : remove s x = s := by
  obtain ⟨root, sz⟩ := s
  cases root with
  | leaf => rfl
  | node v l r =>
    have hnil := remove_filter_nil (t := BTree.node v l r) hc
    simp only [remove, levelOrder] at hnil ⊢
    rw [hnil]
    rfl

/-- The excision step of `remove`: the node it destroys is a childless node,
so exactly one node disappears, whatever the shape of the tree. -/
theorem remove_count [DecidableEq α] {t : BTree α} {dp : Entry α}
    (hdp : ((levelOrder t).filter hasChildB).getLast? = some dp)
    (delPath : List Dir) (w : α) :
    count (removeAt (setVal t delPath w) ((prefEntry dp).path)) + 1 = count t := by
  have hlast := lvl_getLast_pref [([], t)] dp hdp
  have hcl := lvl_getLast_childless [([], t)] (prefEntry dp) hlast
  have hsub := lvl_subtree t [([], t)] (levelOrder_inv t) _ (getLast?_mem' hlast)
  rw [hcl.1, hcl.2] at hsub
  obtain ⟨w', hw'⟩ := subtreeAt_setVal_single hsub delPath w
  have hcnt := count_removeAt hw'
  rw [count_setVal] at hcnt
  exact hcnt

/-- Unfolding of `remove` when a target and a deepest parent were found. -/
theorem remove_spec [DecidableEq α] {v : α} {l r : BTree α} (sz : Int) (x : α)
    {del dp : Entry α}
    (hdel : ((levelOrder (BTree.node v l r)).filter
        fun e => decide (e.val = x)).getLast? = some del)
    (hdp : ((levelOrder (BTree.node v l r)).filter hasChildB).getLast? = some dp) :
    remove ⟨BTree.node v l r, sz⟩ x =
      ⟨removeAt (setVal (BTree.node v l r) del.path (prefEntry dp).val)
        ((prefEntry dp).path), sz - 1⟩ := by
  have hchild : hasChildB dp = true := (List.mem_filter.mp (getLast?_mem' hdp)).2
  simp only [levelOrder] at hdel hdp
  simp only [remove]
  rw [hdel, hdp]
  cases hrcase : dp.r with
  | node rv rl rr => simp [prefEntry, hrcase]
  | leaf =>
    cases hlcase : dp.l with
    | node lv ll lr => simp [prefEntry, hrcase, hlcase]
    | leaf =>
      rw [hasChildB, hrcase, hlcase] at hchild
      simp [isNode] at hchild

/-! ### What insert does -/

theorem insertScan_slot_ok [DecidableEq α] (x : α) (t : BTree α) :
    ∀ (q : List (List Dir × BTree α)),
      (∀ pr ∈ q, subtreeAt t pr.1 = pr.2 ∧ isNode pr.2 = true) →
      ∀ p, insertScan x q = .slot p → okP t p
  | [], _, p, h => by simp [insertScan] at h
  | (p0, .leaf) :: q, hq, p, h => by
    have hn := (hq (p0, .leaf) (by simp)).2
    simp [isNode] at hn
  | (p0, .node v .leaf r) :: q, hq, p, h => by
    have hsub := (hq (p0, .node v .leaf r) (by simp)).1
    simp only [insertScan] at h
    cases h
    exact okP_left_of_subtree hsub
  | (p0, .node v (.node lv ll lr) .leaf) :: q, hq, p, h => by
    have hsub := (hq (p0, .node v (.node lv ll lr) .leaf) (by simp)).1
    simp only [insertScan] at h
    by_cases hv : lv = x
    · rw [if_pos hv] at h; cases h
    · rw [if_neg hv] at h
      cases h
      exact okP_right_of_subtree hsub
  | (p0, .node v (.node lv ll lr) (.node rv rl rr)) :: q, hq, p, h => by
    have hsub := (hq (p0, .node v (.node lv ll lr) (.node rv rl rr)) (by simp)).1
    simp only [insertScan] at h
    by_cases hv : lv = x
    · rw [if_pos hv] at h; cases h
    · rw [if_neg hv] at h
      by_cases hv2 : rv = x
      · rw [if_pos hv2] at h; cases h
      · rw [if_neg hv2] at h
        refine insertScan_slot_ok x t
          (q ++ [(p0 ++ [Dir.L], .node lv ll lr), (p0 ++ [Dir.R], .node rv rl rr)])
          ?_ p h
        intro pr hpr
        rcases List.mem_append.mp hpr with hpr | hpr
        · exact hq pr (List.mem_cons_of_mem _ hpr)
        · rcases List.mem_cons.mp hpr with rfl | hpr
          · constructor
            · rw [subtreeAt_append, hsub]; simp [subtreeAt]
            · simp [isNode]
          · rw [List.mem_singleton] at hpr
            subst hpr
            constructor
            · rw [subtreeAt_append, hsub]; simp [subtreeAt]
            · simp [isNode]
termination_by q => 2 * qMeasure q + q.length
decreasing_by
  simp only [List.length_append, List.length_cons, List.length_nil]
  simp [qMeasure, count]
  omega

theorem insertScan_ne_exhausted [DecidableEq α] (x : α) :
    ∀ (q : List (List Dir × BTree α)), q ≠ [] →
      (∀ pr ∈ q, isNode pr.2 = true) →
      insertScan x q ≠ .exhausted
  | [], hne, _ => absurd rfl hne
  | (p0, .leaf) :: q, _, hq => by
    have hn := hq (p0, .leaf) (by simp)
    simp [isNode] at hn
  | (p0, .node v .leaf r) :: q, _, _ => by
    simp [insertScan]
  | (p0, .node v (.node lv ll lr) .leaf) :: q, _, _ => by
    simp only [insertScan]
    by_cases hv : lv = x
    · rw [if_pos hv]; simp
    · rw [if_neg hv]; simp
  | (p0, .node v (.node lv ll lr) (.node rv rl rr)) :: q, _, hq => by
    simp only [insertScan]
    by_cases hv : lv = x
    · rw [if_pos hv]; simp
    · rw [if_neg hv]
      by_cases hv2 : rv = x
      · rw [if_pos hv2]; simp
      · rw [if_neg hv2]
        refine insertScan_ne_exhausted x
          (q ++ [(p0 ++ [Dir.L], .node lv ll lr), (p0 ++ [Dir.R], .node rv rl rr)])
          (by simp) ?_
        intro pr hpr
        rcases List.mem_append.mp hpr with hpr | hpr
        · exact hq pr (List.mem_cons_of_mem _ hpr)
        · rcases List.mem_cons.mp hpr with rfl | hpr
          · simp [isNode]
          · rw [List.mem_singleton] at hpr
            subst hpr
            simp [isNode]
termination_by q => 2 * qMeasure q + q.length
decreasing_by
  simp only [List.length_append, List.length_cons, List.length_nil]
  simp [qMeasure, count]
  omega

/-! ### Search equivalences -/

theorem pushNode_any [DecidableEq α] (x : α) (c : BTree α) :
    (pushNode c).any (containsB x) = containsB x c := by
  cases c <;> simp [pushNode, containsB]

theorem bfsearchAux_any [DecidableEq α] (x : α) :
    ∀ (q : List (BTree α)), bfsearchAux x q = q.any (containsB x)
  | [] => by simp [bfsearchAux]
  | .leaf :: q => by
    rw [show bfsearchAux x (.leaf :: q) = bfsearchAux x q from by
      simp only [bfsearchAux]]
    rw [bfsearchAux_any x q]
    simp [containsB]
  | .node v l r :: q => by
    simp only [bfsearchAux]
    by_cases hv : v = x
    · rw [if_pos hv]
      simp [containsB, hv]
    · rw [if_neg hv]
      rw [bfsearchAux_any x (q ++ pushNode l ++ pushNode r)]
      simp only [List.any_append, pushNode_any, List.any_cons, containsB, hv,
        decide_False]
      cases containsB x l <;> cases containsB x r <;> cases q.any (containsB x) <;> simp
termination_by q => 2 * (q.map count).sum + q.length
decreasing_by
  · simp; omega
  · simp [pushNode_count, count]
    have hl := pushNode_length l
    have hr := pushNode_length r
    omega

/-- `bfsearch` answers exactly membership of the element in the tree. -/
theorem bfsearch_contains [DecidableEq α] (s : TreeState α) (x : α) :
    bfsearch s x = containsB x s.root := by
  obtain ⟨root, sz⟩ := s
  cases root with
  | leaf => rfl
  | node v l r =>
    show bfsearchAux x [BTree.node v l r] = _
    rw [bfsearchAux_any]
    simp

/-- What remains to be visited for a node sitting on the traversal stack:
its own element and its right subtree. -/
def stackRest [DecidableEq α] (x : α) (t : BTree α) : Bool :=
  match t with
  | .leaf => false
  | .node v _ r => decide (v = x) || containsB x r

theorem dfsearchLoop_eq [DecidableEq α] (x : α) :
    ∀ (st : List (BTree α)) (cur : BTree α),
      dfsearchLoop x st cur = (containsB x cur || st.any (stackRest x))
  | st, .node v l r => by
    rw [show dfsearchLoop x st (.node v l r) = dfsearchLoop x (.node v l r :: st) l from by
      simp only [dfsearchLoop]]
    rw [dfsearchLoop_eq x (.node v l r :: st) l]
    simp only [List.any_cons, stackRest, containsB]
    cases decide (v = x) <;> cases containsB x l <;> cases containsB x r <;> simp
  | [], .leaf => by simp [dfsearchLoop, containsB]
  | .node v l2 r :: st, .leaf => by
    simp only [dfsearchLoop]
    by_cases hv : v = x
    · rw [if_pos hv]
      simp [stackRest, containsB, hv]
    · rw [if_neg hv, dfsearchLoop_eq x st r]
      simp [containsB, stackRest, List.any_cons, hv]
  | .leaf :: st, .leaf => by
    rw [show dfsearchLoop x (.leaf :: st) (.leaf : BTree α) = dfsearchLoop x st .leaf from by
      simp only [dfsearchLoop]]
    rw [dfsearchLoop_eq x st .leaf]
    simp [containsB, stackRest]
termination_by st cur => dMeasure st cur
decreasing_by
  all_goals (simp [dMeasure, count, rsz] <;> omega)

/-- `dfsearch` answers exactly membership of the element in the tree. -/
theorem dfsearch_contains [DecidableEq α] (s : TreeState α) (x : α) :
    dfsearch s x = containsB x s.root := by
  obtain ⟨root, sz⟩ := s
  cases root with
  | leaf => rfl
  | node v l r =>
    show dfsearchLoop x [BTree.node v l r] l = _
    rw [dfsearchLoop_eq]
    simp only [List.any_cons, List.any_nil, stackRest, containsB]
    cases decide (v = x) <;> cases containsB x l <;> cases containsB x r <;> simp

/-! ### Depth and height on absent elements -/

theorem getDepth_not_contains [DecidableEq α] {t : BTree α} {x : α}
    (hc : containsB x t = false) : ∀ d : Int, getDepth t x d = -1 := by
  induction t with
  | leaf => intro d; simp [getDepth]
  | node v l r ihl ihr =>
    intro d
    simp only [containsB, Bool.or_eq_false_iff, decide_eq_false_iff_not] at hc
    obtain ⟨⟨h1, h2⟩, h3⟩ := hc
    simp [getDepth, h1, ihl h2, ihr h3]

theorem getHeight_not_contains [DecidableEq α] {t : BTree α} {x : α}
    (hc : containsB x t = false) : ∀ h : Int, getHeight t x h false = -1 := by
  induction t with
  | leaf => intro h; simp [getHeight]
  | node v l r ihl ihr =>
    intro h
    simp only [containsB, Bool.or_eq_false_iff, decide_eq_false_iff_not] at hc
    obtain ⟨⟨h1, h2⟩, h3⟩ := hc
    simp [getHeight, h1, ihl h2, ihr h3]

/-! ### The size invariant -/

theorem emptyQ_iff (s : TreeState α) : emptyQ s = true ↔ size s = 0 := by
  simp [emptyQ, size]

theorem inv_of_count {s : TreeState α} (h : s.treeSize = (count s.root : Int)) :
    Inv s := by
  refine ⟨h, emptyQ_iff s, ?_⟩
  rw [size, h]
  constructor
  · intro h0; rw [h0]; simp [count]
  · intro h0
    have h1 : count s.root = 0 := by exact_mod_cast h0
    exact count_eq_zero.mp h1

theorem singleton_inv (t : BTree α) :
    ∀ pr ∈ ([([], t)] : List (List Dir × BTree α)),
      subtreeAt t pr.1 = pr.2 ∧ (t = pr.2) := by
  intro pr hpr
  rw [List.mem_singleton] at hpr
  subst hpr
  simp

theorem insert_size [DecidableEq α] {s : TreeState α}
    (h : s.treeSize = (count s.root : Int)) (x : α) :
    (insert s x).treeSize = (count (insert s x).root : Int) := by
  obtain ⟨root, sz⟩ := s
  cases root with
  | leaf =>
    simp only [insert]
    simp [count] at h ⊢
    omega
  | node v l r =>
    simp only [insert]
    by_cases hv : v = x
    · rw [if_pos hv]; exact h
    · rw [if_neg hv]
      cases hscan : insertScan x [([], BTree.node v l r)] with
      | dup => exact h
      | exhausted =>
        refine absurd hscan (insertScan_ne_exhausted x _ (by simp) ?_)
        intro pr hpr
        rw [List.mem_singleton] at hpr
        subst hpr
        simp [isNode]
      | slot p =>
        have hok := insertScan_slot_ok x (BTree.node v l r) [([], BTree.node v l r)]
          (by
            intro pr hpr
            rw [List.mem_singleton] at hpr
            subst hpr
            exact ⟨by simp, by simp [isNode]⟩) p hscan
        show sz + 1 = (count (placeAt (BTree.node v l r) p x) : Int)
        rw [count_placeAt hok]
        simp at h
        push_cast
        omega

theorem remove_size [DecidableEq α] {s : TreeState α}
    (h : s.treeSize = (count s.root : Int)) (x : α) :
    (remove s x).treeSize = (count (remove s x).root : Int) := by
  obtain ⟨root, sz⟩ := s
  by_cases hc : containsB x root = true
  case neg =>
    rw [remove_not_contains ⟨root, sz⟩ x (by simpa using hc)]
    exact h
  case pos =>
    cases root with
    | leaf => simp [containsB] at hc
    | node v l r =>
      obtain ⟨del, hdel⟩ := remove_del_some hc
      by_cases h2 : 1 < count (BTree.node v l r)
      · obtain ⟨dp, hdp⟩ := remove_dp_some h2
        rw [remove_spec sz x hdel hdp]
        have hcnt := remove_count hdp del.path (prefEntry dp).val
        show sz - 1 = _
        simp only [] at h ⊢
        rw [h]
        omega
      · have h1 : count (BTree.node v l r) = 1 := by
          have := count_node v l r
          omega
        rw [count_node] at h1
        have hl : l = .leaf := count_eq_zero.mp (by omega)
        have hr : r = .leaf := count_eq_zero.mp (by omega)
        subst hl
        subst hr
        have hfil : (List.filter hasChildB
            (lvl [([], BTree.node v (.leaf : BTree α) .leaf)])) = [] := by
          simp [lvl, children, pushChild, hasChildB, isNode]
        simp only [remove, levelOrder] at hdel ⊢
        rw [hdel, hfil]
        simp [count]

theorem count_invert (t : BTree α) : count (invert t) = count t := by
  induction t with
  | leaf => rfl
  | node v l r ihl ihr =>
    simp [invert, count, ihl, ihr]
    omega

theorem copyTree_eq (t : BTree α) : copyTree t = t := by
  induction t with
  | leaf => rfl
  | node v l r ihl ihr => simp [copyTree, ihl, ihr]

/-! ### The complete level-order tree of a list -/

theorem fromListAux_lt (xs : List α) (i : Nat) (h : i < xs.length) :
    fromListAux xs i
      = .node xs[i] (fromListAux xs (2 * i + 1)) (fromListAux xs (2 * i + 2)) := by
  rw [fromListAux]
  simp [h]

theorem fromListAux_ge (xs : List α) (i : Nat) (h : xs.length ≤ i) :
    fromListAux xs i = .leaf := by
  rw [fromListAux]
  simp [Nat.not_lt.mpr h]

theorem pathOfIdx_zero : pathOfIdx 0 = ([] : List Dir) := by
  rw [pathOfIdx]

theorem idxFrom_nil (i : Nat) : idxFrom i [] = i := rfl

theorem idxFrom_cons_L (i : Nat) (p : List Dir) :
    idxFrom i (Dir.L :: p) = idxFrom (2 * i + 1) p := rfl

theorem idxFrom_cons_R (i : Nat) (p : List Dir) :
    idxFrom i (Dir.R :: p) = idxFrom (2 * i + 2) p := rfl

theorem pathOfIdx_left (i : Nat) : pathOfIdx (2 * i + 1) = pathOfIdx i ++ [Dir.L] := by
  show pathOfIdx (2 * i + 1) = _
  rw [show 2 * i + 1 = (2 * i) + 1 from rfl, pathOfIdx]
  have h1 : 2 * i / 2 = i := by omega
  have h2 : 2 * i % 2 = 0 := by omega
  rw [h1, h2]
  simp

theorem pathOfIdx_right (i : Nat) : pathOfIdx (2 * i + 2) = pathOfIdx i ++ [Dir.R] := by
  rw [show 2 * i + 2 = (2 * i + 1) + 1 from rfl, pathOfIdx]
  have h1 : (2 * i + 1) / 2 = i := by omega
  have h2 : (2 * i + 1) % 2 = 1 := by omega
  rw [h1, h2]
  simp

theorem idxFrom_ge : ∀ (p : List Dir) (i : Nat), i ≤ idxFrom i p
  | [], i => le_refl i
  | .L :: p, i => le_trans (by omega) (idxFrom_ge p (2 * i + 1))
  | .R :: p, i => le_trans (by omega) (idxFrom_ge p (2 * i + 2))

theorem idxFrom_append_L (p : List Dir) :
    ∀ i, idxFrom i (p ++ [Dir.L]) = 2 * idxFrom i p + 1 := by
  induction p with
  | nil => intro i; rfl
  | cons d p ih => intro i; cases d <;> exact ih _

theorem idxFrom_append_R (p : List Dir) :
    ∀ i, idxFrom i (p ++ [Dir.R]) = 2 * idxFrom i p + 2 := by
  induction p with
  | nil => intro i; rfl
  | cons d p ih => intro i; cases d <;> exact ih _

theorem idxFrom_pathOfIdx : ∀ (k : Nat), idxFrom 0 (pathOfIdx k) = k
  | 0 => by rw [pathOfIdx_zero, idxFrom_nil]
  | k + 1 => by
    rw [pathOfIdx]
    have ih := idxFrom_pathOfIdx (k / 2)
    by_cases h2 : k % 2 = 0
    · rw [if_pos h2, idxFrom_append_L, ih]
      omega
    · rw [if_neg h2, idxFrom_append_R, ih]
      omega
termination_by k => k
decreasing_by omega

theorem pathOfIdx_idxFrom (p : List Dir) : pathOfIdx (idxFrom 0 p) = p := by
  induction p using List.reverseRecOn with
  | nil => rw [idxFrom_nil, pathOfIdx_zero]
  | append_singleton p d ih =>
    cases d with
    | L => rw [idxFrom_append_L, pathOfIdx_left, ih]
    | R => rw [idxFrom_append_R, pathOfIdx_right, ih]

theorem valueAt_fromListAux (xs : List α) :
    ∀ (p : List Dir) (i : Nat), valueAt (fromListAux xs i) p = xs[idxFrom i p]? := by
  intro p
  induction p with
  | nil =>
    intro i
    rw [idxFrom_nil]
    by_cases h : i < xs.length
    · rw [fromListAux_lt xs i h]
      show some xs[i] = _
      rw [List.getElem?_eq_getElem h]
    · rw [fromListAux_ge xs i (Nat.le_of_not_lt h)]
      show (none : Option α) = _
      rw [List.getElem?_eq_none (Nat.le_of_not_lt h)]
  | cons d p ih =>
    intro i
    by_cases h : i < xs.length
    · rw [fromListAux_lt xs i h]
      cases d with
      | L => exact ih (2 * i + 1)
      | R => exact ih (2 * i + 2)
    · rw [fromListAux_ge xs i (Nat.le_of_not_lt h)]
      have hge : xs.length ≤ idxFrom i (d :: p) := by
        cases d with
        | L =>
          rw [idxFrom_cons_L]
          have h1 := idxFrom_ge p (2 * i + 1)
          omega
        | R =>
          rw [idxFrom_cons_R]
          have h1 := idxFrom_ge p (2 * i + 2)
          omega
      rw [List.getElem?_eq_none hge]
      simp [valueAt]

theorem btree_ext : ∀ {t1 t2 : BTree α},
    (∀ p, valueAt t1 p = valueAt t2 p) → t1 = t2 := by
  intro t1
  induction t1 with
  | leaf =>
    intro t2 h
    cases t2 with
    | leaf => rfl
    | node v l r => exact absurd (h []).symm (by simp [valueAt])
  | node v l r ihl ihr =>
    intro t2 h
    cases t2 with
    | leaf => exact absurd (h []) (by simp [valueAt])
    | node w a b =>
      have hv : v = w := by
        have := h []
        simpa [valueAt] using this
      have ha : l = a := ihl fun p => h (Dir.L :: p)
      have hb : r = b := ihr fun p => h (Dir.R :: p)
      rw [hv, ha, hb]

theorem valueAt_placeAt {t : BTree α} {q : List Dir} (h : okP t q) (x : α) :
    ∀ p, valueAt (placeAt t q x) p = if p = q then some x else valueAt t p := by
  induction q generalizing t with
  | nil =>
    have ht : t = .leaf := by
      cases t
      · rfl
      · simp [okP] at h
    subst ht
    intro p
    cases p with
    | nil => simp [placeAt, valueAt]
    | cons d p => cases d <;> simp [placeAt, valueAt]
  | cons d q ih =>
    have ht : ∃ v l r, t = BTree.node v l r := by
      cases t
      · cases d <;> simp [okP] at h
      · exact ⟨_, _, _, rfl⟩
    obtain ⟨v, l, r, rfl⟩ := ht
    intro p
    cases d with
    | L =>
      rw [okP] at h
      cases p with
      | nil => simp [placeAt, valueAt]
      | cons d' p =>
        cases d' <;> simp [placeAt, valueAt, ih h]
    | R =>
      rw [okP] at h
      cases p with
      | nil => simp [placeAt, valueAt]
      | cons d' p =>
        cases d' <;> simp [placeAt, valueAt, ih h]

theorem okP_fromListAux (xs : List α) :
    ∀ (p : List Dir) (i : Nat), idxFrom i p = xs.length →
      okP (fromListAux xs i) p := by
  intro p
  induction p with
  | nil =>
    intro i h
    rw [idxFrom_nil] at h
    rw [fromListAux_ge xs i (le_of_eq h.symm)]
    simp [okP]
  | cons d p ih =>
    intro i h
    have hlt : i < xs.length := by
      have h1 : idxFrom i (d :: p) = xs.length := h
      cases d with
      | L =>
        have h2 := idxFrom_ge p (2 * i + 1)
        rw [idxFrom_cons_L] at h1
        omega
      | R =>
        have h2 := idxFrom_ge p (2 * i + 2)
        rw [idxFrom_cons_R] at h1
        omega
    rw [fromListAux_lt xs i hlt]
    cases d with
    | L => exact ih (2 * i + 1) h
    | R => exact ih (2 * i + 2) h

/-- Placing a new node at the first free level-order slot of the complete
tree of `xs` yields the complete tree of `xs ++ [x]`. -/
theorem placeAt_fromList (xs : List α) (x : α) :
    placeAt (fromListAux xs 0) (pathOfIdx xs.length) x = fromListAux (xs ++ [x]) 0 := by
  apply btree_ext
  intro p
  have hok := okP_fromListAux xs (pathOfIdx xs.length) 0 (idxFrom_pathOfIdx xs.length)
  rw [valueAt_placeAt hok x p, valueAt_fromListAux (xs ++ [x]) p 0]
  by_cases hp : p = pathOfIdx xs.length
  · rw [if_pos hp, hp, idxFrom_pathOfIdx, List.getElem?_concat_length]
  · rw [if_neg hp, valueAt_fromListAux xs p 0]
    have hne : idxFrom 0 p ≠ xs.length := by
      intro h0
      exact hp (by rw [← pathOfIdx_idxFrom p, h0])
    by_cases hlt : idxFrom 0 p < xs.length
    · rw [List.getElem?_append_left hlt]
    · rw [List.getElem?_eq_none (Nat.le_of_not_lt hlt),
        List.getElem?_eq_none (by simp; omega)]

/-- The `insert` scan over the complete tree of `xs`, with the nodes before
`i` already popped: it reports a duplicate exactly when the element appears
among the children still to be examined (`xs` from index `2i+1` on), and
otherwise finds the slot of index `xs.length`, the first free level-order
position. -/
theorem insertScan_win [DecidableEq α] (xs : List α) (x : α) (i : Nat)
    (hi : i < xs.length) (hinv : i = 0 ∨ 2 * i < xs.length) :
    insertScan x (win xs i) =
      if (xs.drop (2 * i + 1)).any (fun v => decide (v = x))
      then ScanRes.dup else ScanRes.slot (pathOfIdx xs.length) := by
  have hwin : win xs i = (pathOfIdx i, fromListAux xs i) ::
      (List.range' (i + 1) (min (2 * i + 1) xs.length - (i + 1))).map
        (fun k => (pathOfIdx k, fromListAux xs k)) := by
    rw [win]
    have hm : min (2 * i + 1) xs.length - i
        = (min (2 * i + 1) xs.length - (i + 1)) + 1 := by omega
    rw [hm, List.range'_succ, List.map_cons]
  rw [hwin, fromListAux_lt xs i hi]
  by_cases h1 : 2 * i + 1 < xs.length
  · rw [fromListAux_lt xs (2 * i + 1) h1]
    by_cases h2 : 2 * i + 2 < xs.length
    · rw [fromListAux_lt xs (2 * i + 2) h2]
      simp only [insertScan]
      by_cases hv1 : xs[2 * i + 1] = x
      · rw [if_pos hv1]
        have hany : (xs.drop (2 * i + 1)).any (fun v => decide (v = x)) = true := by
          rw [List.drop_eq_getElem_cons h1]
          simp [hv1]
        rw [if_pos hany]
      · rw [if_neg hv1]
        by_cases hv2 : xs[2 * i + 2] = x
        · rw [if_pos hv2]
          have hany : (xs.drop (2 * i + 1)).any (fun v => decide (v = x)) = true := by
            rw [List.drop_eq_getElem_cons h1,
              show 2 * i + 1 + 1 = 2 * i + 2 from rfl,
              List.drop_eq_getElem_cons h2]
            simp [hv2]
          rw [if_pos hany]
        · rw [if_neg hv2]
          rw [← fromListAux_lt xs (2 * i + 1) h1, ← fromListAux_lt xs (2 * i + 2) h2, ← pathOfIdx_left,
            ← pathOfIdx_right]
          have hqueue :
              ((List.range' (i + 1) (min (2 * i + 1) xs.length - (i + 1))).map
                  (fun k => (pathOfIdx k, fromListAux xs k)))
                ++ [(pathOfIdx (2 * i + 1), fromListAux xs (2 * i + 1)),
                    (pathOfIdx (2 * i + 2), fromListAux xs (2 * i + 2))]
              = win xs (i + 1) := by
            rw [win]
            rw [show min (2 * i + 1) xs.length - (i + 1) = i by omega,
              show min (2 * (i + 1) + 1) xs.length - (i + 1) = (i + 1) + 1 by omega]
            rw [List.range'_1_concat (i + 1) (i + 1), List.range'_1_concat (i + 1) i]
            rw [show i + 1 + i = 2 * i + 1 by omega,
              show i + 1 + (i + 1) = 2 * i + 2 by omega]
            simp [List.map_append]
          rw [hqueue]
          rw [insertScan_win xs x (i + 1) (by omega) (by omega)]
          have hdrop : xs.drop (2 * i + 1)
              = xs[2 * i + 1] :: xs[2 * i + 2] :: xs.drop (2 * (i + 1) + 1) := by
            rw [List.drop_eq_getElem_cons h1]
            congr 1
            show xs.drop (2 * i + 2) = _
            rw [show 2 * (i + 1) + 1 = 2 * i + 2 + 1 by omega]
            rw [List.drop_eq_getElem_cons h2]
          rw [hdrop]
          simp [hv1, hv2]
    · have hEq : xs.length = 2 * i + 2 := by omega
      rw [fromListAux_ge xs (2 * i + 2) (by omega)]
      simp only [insertScan]
      by_cases hv1 : xs[2 * i + 1] = x
      · rw [if_pos hv1]
        have hany : (xs.drop (2 * i + 1)).any (fun v => decide (v = x)) = true := by
          rw [List.drop_eq_getElem_cons h1]
          simp [hv1]
        rw [if_pos hany]
      · rw [if_neg hv1]
        have hany : (xs.drop (2 * i + 1)).any (fun v => decide (v = x)) = false := by
          rw [List.drop_eq_getElem_cons h1,
            show 2 * i + 1 + 1 = 2 * i + 2 from rfl,
            List.drop_eq_nil_of_le (by omega)]
          simp [hv1]
        rw [if_neg (by rw [hany]; exact Bool.false_ne_true)]
        rw [← pathOfIdx_right, hEq]
  · have hEq : xs.length = 2 * i + 1 := by omega
    rw [fromListAux_ge xs (2 * i + 1) (by omega)]
    simp only [insertScan]
    have hany : (xs.drop (2 * i + 1)).any (fun v => decide (v = x)) = false := by
      rw [List.drop_eq_nil_of_le (by omega)]
      rfl
    rw [if_neg (by rw [hany]; exact Bool.false_ne_true)]
    rw [← pathOfIdx_left, hEq]
termination_by xs.length - i
decreasing_by omega

theorem fromList_nil : fromList ([] : List α) = .leaf := by
  rw [fromList]
  exact fromListAux_ge [] 0 (by simp)

theorem fromList_singleton (x : α) : fromList [x] = .node x .leaf .leaf := by
  rw [fromList, fromListAux_lt [x] 0 (by simp)]
  rw [fromListAux_ge [x] (2 * 0 + 1) (by simp), fromListAux_ge [x] (2 * 0 + 2) (by simp)]
  simp

/-- Inserting a fresh element into the complete tree of `xs` appends it at
the first free level-order slot: the tree becomes the complete tree of
`xs ++ [x]`. -/
theorem insert_fromList [DecidableEq α] (xs : List α) (x : α) (hx : x ∉ xs) (sz : Int) :
    insert ⟨fromList xs, sz⟩ x = ⟨fromList (xs ++ [x]), sz + 1⟩ := by
  by_cases hnil : xs.length = 0
  · have hxs : xs = [] := List.eq_nil_of_length_eq_zero hnil
    subst hxs
    rw [fromList_nil]
    show (⟨BTree.node x .leaf .leaf, sz + 1⟩ : TreeState α) = _
    rw [List.nil_append, fromList_singleton]
  · have hlen : 0 < xs.length := Nat.pos_of_ne_zero hnil
    have hroot := fromListAux_lt xs 0 hlen
    rw [show fromList xs = fromListAux xs 0 from rfl, hroot]
    have hv0 : ¬xs[0] = x := fun h0 => hx (h0 ▸ List.getElem_mem hlen)
    simp only [insert]
    rw [if_neg hv0]
    rw [← hroot]
    have hwin0 : ([(([] : List Dir), fromListAux xs 0)]
        : List (List Dir × BTree α)) = win xs 0 := by
      rw [win]
      rw [show min (2 * 0 + 1) xs.length - 0 = 1 by omega]
      rw [show List.range' 0 1 = [0] from rfl]
      simp [pathOfIdx_zero]
    rw [hwin0, insertScan_win xs x 0 hlen (Or.inl rfl)]
    have hany : (xs.drop (2 * 0 + 1)).any (fun v => decide (v = x)) = false := by
      cases hh : (xs.drop (2 * 0 + 1)).any (fun v => decide (v = x)) with
      | false => rfl
      | true =>
        obtain ⟨v, hv, hvx⟩ := List.any_eq_true.mp hh
        rw [decide_eq_true_eq] at hvx
        exact absurd (hvx ▸ List.mem_of_mem_drop hv) hx
    rw [if_neg (by rw [hany]; exact Bool.false_ne_true)]
    show (⟨placeAt (fromListAux xs 0) (pathOfIdx xs.length) x, sz + 1⟩ : TreeState α) = _
    rw [placeAt_fromList]
    rfl

/-- Inserting an element already present in a complete level-order tree is a
no-op: on such trees the scan always meets the duplicate before it can find
a free slot. -/
theorem insert_fromList_dup [DecidableEq α] (xs : List α) (x : α) (hx : x ∈ xs) (sz : Int) :
    insert ⟨fromList xs, sz⟩ x = ⟨fromList xs, sz⟩ := by
  have hlen : 0 < xs.length := List.length_pos.mpr (List.ne_nil_of_mem hx)
  have hroot := fromListAux_lt xs 0 hlen
  rw [show fromList xs = fromListAux xs 0 from rfl, hroot]
  simp only [insert]
  by_cases hv0 : xs[0] = x
  · rw [if_pos hv0, ← hroot]
  · rw [if_neg hv0]
    rw [← hroot]
    have hwin0 : ([(([] : List Dir), fromListAux xs 0)]
        : List (List Dir × BTree α)) = win xs 0 := by
      rw [win]
      rw [show min (2 * 0 + 1) xs.length - 0 = 1 by omega]
      rw [show List.range' 0 1 = [0] from rfl]
      simp [pathOfIdx_zero]
    rw [hwin0, insertScan_win xs x 0 hlen (Or.inl rfl)]
    have hany : (xs.drop (2 * 0 + 1)).any (fun v => decide (v = x)) = true := by
      obtain ⟨a, t, hat⟩ := List.exists_cons_of_ne_nil (List.ne_nil_of_mem hx)
      refine List.any_eq_true.mpr ⟨x, ?_, by simp⟩
      have hx' := hx
      rw [hat] at hx'
      rw [hat]
      show x ∈ t
      rcases List.mem_cons.mp hx' with rfl | hmem
      · exact absurd (by simp [hat]) hv0
      · exact hmem
    rw [if_pos hany]

/-- Folding `insert` over a duplicate-free list from the empty tree builds
exactly the complete level-order tree of the list, with size the list's
length. -/
theorem foldl_insert_fromList [DecidableEq α] (xs : List α) (h : xs.Nodup) :
    List.foldl insert emptyState xs = ⟨fromList xs, (xs.length : Int)⟩ := by
  induction xs using List.reverseRecOn with
  | nil =>
    show emptyState = _
    rw [emptyState, fromList_nil]
    rfl
  | append_singleton ys y ih =>
    rw [List.nodup_append] at h
    obtain ⟨hys, -, hdisj⟩ := h
    have hy : y ∉ ys := fun hmem => by
      exact hdisj hmem (by simp)
    rw [List.foldl_append, ih hys]
    show insert ⟨fromList ys, (ys.length : Int)⟩ y = _
    rw [insert_fromList ys y hy]
    congr 1
    simp [List.length_append]

/-! ### Claims -/

/-- The level-order tree holding 1,2,3,4,5. -/
def t5 : BTree Nat :=
  .node 1 (.node 2 (.node 4 .leaf .leaf) (.node 5 .leaf .leaf)) (.node 3 .leaf .leaf)

/-- `t5` after `remove 2`: node 2's slot now holds 5, node 5's old place is
gone. -/
def t5after : BTree Nat :=
  .node 1 (.node 5 (.node 4 .leaf .leaf) .leaf) (.node 3 .leaf .leaf)

/-- A three-node level-order tree. -/
def t3 : BTree Nat := .node 1 (.node 2 .leaf .leaf) (.node 3 .leaf .leaf)

/-- What `remove` does on a multi-node tree containing its argument: the
last node the scan matched (`del`, the node holding `x`) receives the value
of the level-order-last node `e`, the node `e` is excised, and the size
counter drops by one. -/
def removeDescribes [DecidableEq α] (v : α) (l r : BTree α) (sz : Int) (x : α) : Prop :=
  ∃ del e,
    ((levelOrder (BTree.node v l r)).filter fun en => decide (en.val = x)).getLast?
      = some del ∧
    (levelOrder (BTree.node v l r)).getLast? = some e ∧
    remove ⟨BTree.node v l r, sz⟩ x
      = ⟨removeAt (setVal (BTree.node v l r) del.path e.val) e.path, sz - 1⟩

/-- Claim C1: on every tree with more than one node that stores `x`,
`remove x` copies the value of the level-order-last node into the node
holding `x`, excises that last node, and decrements the size by one;
concretely, removing 2 from the level-order tree of 1..5 rewires it to
`t5after` at size 4, and removing the only element of a single-node tree
leaves the empty state. -/
theorem c1_remove_uses_levelOrder_last [DecidableEq α]
    (v : α) (l r : BTree α) (sz : Int) (x : α)
    (hc : containsB x (BTree.node v l r) = true)
    (hn : 1 < count (BTree.node v l r)) :
    removeDescribes v l r sz x ∧
    remove ⟨t5, 5⟩ 2 = ⟨t5after, 4⟩ ∧
    (remove ⟨BTree.node 1 .leaf .leaf, 1⟩ (1 : Nat) = ⟨.leaf, 0⟩ ∧
      emptyQ (remove ⟨BTree.node 1 .leaf .leaf, 1⟩ (1 : Nat)) = true) := by
  refine ⟨?_, ?_, ?_, ?_⟩
  · obtain ⟨del, hdel⟩ := remove_del_some hc
    obtain ⟨dp, hdp⟩ := remove_dp_some hn
    exact ⟨del, prefEntry dp, hdel, lvl_getLast_pref _ dp hdp, remove_spec sz x hdel hdp⟩
  · simp [t5, t5after, remove, lvl, children, pushChild, hasChildB, isNode,
      levelOrder, prefEntry, setVal, removeAt]
  · simp [remove, lvl, children, pushChild, hasChildB, isNode, levelOrder]
  · simp [remove, lvl, children, pushChild, hasChildB, isNode, levelOrder, emptyQ]

/-- Claim C1 witness at the tree `t3` with `x = 2`. -/
theorem c1_remove_uses_levelOrder_last_witness :
    removeDescribes 1 (.node 2 .leaf .leaf) (.node 3 .leaf .leaf) 3 2 ∧
    remove ⟨t5, 5⟩ 2 = ⟨t5after, 4⟩ ∧
    (remove ⟨BTree.node 1 .leaf .leaf, 1⟩ (1 : Nat) = ⟨.leaf, 0⟩ ∧
      emptyQ (remove ⟨BTree.node 1 .leaf .leaf, 1⟩ (1 : Nat)) = true) :=
  c1_remove_uses_levelOrder_last 1 (.node 2 .leaf .leaf) (.node 3 .leaf .leaf) 3 2
    (by decide) (by decide)

/-- Claim C10: on every tree with more than one node, whatever its shape,
the node `remove` excises — the preferred (right, else left) child of the
level-order-last node owning a child — is a leaf and is the overall
level-order-last node; hence a `remove` of any stored element destroys
exactly one node. -/
theorem c10_excised_node_is_last_leaf [DecidableEq α]
    (v : α) (l r : BTree α) (hn : 1 < count (BTree.node v l r)) :
    ∃ dp e,
      ((levelOrder (BTree.node v l r)).filter hasChildB).getLast? = some dp ∧
      (levelOrder (BTree.node v l r)).getLast? = some e ∧
      prefEntry dp = e ∧ e.l = .leaf ∧ e.r = .leaf ∧
      ∀ (x : α) (sz : Int), containsB x (BTree.node v l r) = true →
        count ((remove ⟨BTree.node v l r, sz⟩ x).root) + 1
          = count (BTree.node v l r) := by
  obtain ⟨dp, hdp⟩ := remove_dp_some hn
  have hlast := lvl_getLast_pref [([], BTree.node v l r)] dp hdp
  have hcl := lvl_getLast_childless [([], BTree.node v l r)] (prefEntry dp) hlast
  refine ⟨dp, prefEntry dp, hdp, hlast, rfl, hcl.1, hcl.2, ?_⟩
  intro x sz hc
  obtain ⟨del, hdel⟩ := remove_del_some hc
  rw [remove_spec sz x hdel hdp]
  exact remove_count hdp del.path (prefEntry dp).val

/-- Claim C10 witness at the tree `t3`. -/
theorem c10_excised_node_is_last_leaf_witness :
    ∃ dp e,
      ((levelOrder (BTree.node 1 (.node 2 .leaf .leaf) (.node 3 .leaf .leaf))).filter
          hasChildB).getLast? = some dp ∧
      (levelOrder (BTree.node 1 (.node 2 .leaf .leaf) (.node 3 .leaf .leaf))).getLast?
        = some e ∧
      prefEntry dp = e ∧ e.l = .leaf ∧ e.r = .leaf ∧
      ∀ (x : Nat) (sz : Int),
        containsB x (BTree.node 1 (.node 2 .leaf .leaf) (.node 3 .leaf .leaf)) = true →
        count ((remove ⟨BTree.node 1 (.node 2 .leaf .leaf) (.node 3 .leaf .leaf), sz⟩ x).root)
          + 1 = count (BTree.node 1 (.node 2 .leaf .leaf) (.node 3 .leaf .leaf)) :=
  c10_excised_node_is_last_leaf 1 (.node 2 .leaf .leaf) (.node 3 .leaf .leaf) (by decide)

/-- Claim C2: starting from the empty tree, any sequence of `insert` calls
with pairwise distinct elements yields exactly the complete binary tree of
`size()` nodes filled in level order with no gaps — each insert lands in the
first empty child slot of the breadth-first scan, left before right. -/
theorem c2_structural_completeness [DecidableEq α] (xs : List α) (h : xs.Nodup) :
    List.foldl insert emptyState xs = ⟨fromList xs, (xs.length : Int)⟩ :=
  foldl_insert_fromList xs h

/-- Claim C2 witness on the inserts 1, 2, 3. -/
theorem c2_structural_completeness_witness :
    List.foldl insert (emptyState : TreeState Nat) [1, 2, 3]
      = ⟨fromList [1, 2, 3], (([1, 2, 3] : List Nat).length : Int)⟩ :=
  c2_structural_completeness [1, 2, 3] (by decide)

/-- Claim C3 counterexample: after `insert 1; insert 2; invertTree`, the
element 2 sits in the root's right child and the root's left slot is empty;
`insert 2` then fails to see the duplicate, inserts a second node 2, and
grows the size from 2 to 3 — so over states reachable with `invertTree`,
insert of a stored element is not a no-op. -/
theorem c3_counterexample :
    containsB 2 (invertTree (insert (insert (emptyState : TreeState Nat) 1) 2)).root
      = true ∧
    (invertTree (insert (insert (emptyState : TreeState Nat) 1) 2)).treeSize = 2 ∧
    insert (invertTree (insert (insert (emptyState : TreeState Nat) 1) 2)) 2
      = ⟨.node 1 (.node 2 .leaf .leaf) (.node 2 .leaf .leaf), 3⟩ := by
  refine ⟨?_, ?_, ?_⟩ <;>
    simp [insert, insertScan, invertTree, invert, emptyState, containsB, placeAt]

/-- Claim C3 (amended): on every structurally complete level-order tree
state — in particular every state reachable without `invertTree` — inserting
an element already stored anywhere in the tree is a no-op: it changes
neither `size()` nor the structure nor any stored value. -/
theorem c3_duplicate_rejection [DecidableEq α]
    (xs : List α) (x : α) (hx : x ∈ xs) (sz : Int) :
    insert ⟨fromList xs, sz⟩ x = ⟨fromList xs, sz⟩ :=
  insert_fromList_dup xs x hx sz

/-- Claim C3 (amended) witness: re-inserting 2 into the complete tree of
1, 2, 3. -/
theorem c3_duplicate_rejection_witness :
    insert ⟨fromList [1, 2, 3], (3 : Int)⟩ (2 : Nat) = ⟨fromList [1, 2, 3], (3 : Int)⟩ :=
  c3_duplicate_rejection [1, 2, 3] 2 (by decide) 3

/-- Claim C4: every state reachable through the public interface satisfies
the size invariant: `treeSize` equals the number of reachable nodes,
`empty()` answers `size() == 0`, and the root is null exactly when the size
is zero. -/
theorem c4_size_consistency [DecidableEq α] {s : TreeState α} (h : Reachable s) :
    Inv s := by
  induction h with
  | empty => exact inv_of_count rfl
  | insert x _ ih => exact inv_of_count (insert_size ih.1 x)
  | remove x _ ih => exact inv_of_count (remove_size ih.1 x)
  | clear _ ih => exact inv_of_count rfl
  | invert _ ih =>
    refine inv_of_count ?_
    show _ = (count (invert _) : Int)
    rw [count_invert]
    exact ih.1
  | copy _ heq ih =>
    rw [copyCtor] at heq
    split at heq
    · cases heq
    · injection heq with h2
      subst h2
      refine inv_of_count ?_
      show (count _ : Int) = (count (copyTree _) : Int)
      rw [copyTree_eq]
  | moveDst _ heq ih =>
    rw [moveCtor] at heq
    split at heq
    · cases heq
    · injection heq with h2
      rw [Prod.mk.injEq] at h2
      obtain ⟨h3, h4⟩ := h2
      subst h3
      refine inv_of_count ?_
      show (count _ : Int) = (count (copyTree _) : Int)
      rw [copyTree_eq]
  | moveSrc _ heq ih =>
    rw [moveCtor] at heq
    split at heq
    · cases heq
    · injection heq with h2
      rw [Prod.mk.injEq] at h2
      obtain ⟨h3, h4⟩ := h2
      subst h4
      exact inv_of_count rfl

/-- Claim C4 witness: the invariant at the reachable state `insert 1`. -/
theorem c4_size_consistency_witness :
    Inv (insert (emptyState : TreeState Nat) 1) :=
  c4_size_consistency (Reachable.insert 1 Reachable.empty)

/-- On a nonempty source with a consistent counter, copy construction
completes and the copy carries the source's exact shape, values and size. -/
theorem copyCtor_nonempty (a : TreeState α) (h : a.treeSize = (count a.root : Int))
    (hne : a.root ≠ .leaf) : copyCtor a = some a := by
  obtain ⟨root, sz⟩ := a
  cases root with
  | leaf => exact absurd rfl hne
  | node v l r =>
    have h' : sz = (count (BTree.node v l r) : Int) := h
    show some (⟨copyTree (.node v l r), (count (BTree.node v l r) : Int)⟩ : TreeState α)
      = some ⟨BTree.node v l r, sz⟩
    rw [copyTree_eq, h']

/-- On a nonempty source with a consistent counter, move construction
completes, the destination holds the source's prior state, and the source
is left empty. -/
theorem moveCtor_nonempty (a : TreeState α) (h : a.treeSize = (count a.root : Int))
    (hne : a.root ≠ .leaf) : moveCtor a = some (a, ⟨.leaf, 0⟩) := by
  obtain ⟨root, sz⟩ := a
  cases root with
  | leaf => exact absurd rfl hne
  | node v l r =>
    have h' : sz = (count (BTree.node v l r) : Int) := h
    show some ((⟨copyTree (.node v l r), (count (BTree.node v l r) : Int)⟩ : TreeState α),
        (⟨.leaf, 0⟩ : TreeState α)) = some (⟨BTree.node v l r, sz⟩, ⟨.leaf, 0⟩)
    rw [copyTree_eq, h']

/-- Claim C5 (code bug): the round-trip copy claim covers every tree, but
copy construction from the empty tree crashes — the clone loop pushes the
null root into its queue unchecked and dereferences it
(src/BinaryTree.hpp:161,171) — so no copy exists at all: `copyCtor` is
`none` on the empty state.  On a nonempty source the claimed round trip
holds, shown here at a concrete tree: the copy equals the source and
clearing the source yields the empty state without touching the copy. -/
theorem c5_copy_crashes_on_empty_source :
    copyCtor (emptyState : TreeState Nat) = none ∧
    (emptyState : TreeState Nat).root = .leaf ∧
    copyCtor (⟨t3, 3⟩ : TreeState Nat) = some ⟨t3, 3⟩ ∧
    clearS (⟨t3, 3⟩ : TreeState Nat) = ⟨.leaf, 0⟩ := by
  decide

/-- Claim C6 (code bug): the move-empties-source claim covers every tree,
but move construction from the empty tree crashes — the clone loop
dereferences the null root (src/BinaryTree.hpp:205,215) — so neither a
destination nor an emptied source exists: `moveCtor` is `none` on the empty
state.  On a nonempty source the claim holds, shown here at a concrete
tree: the destination carries exactly what the source held and the source
ends empty (`empty()` true). -/
theorem c6_move_crashes_on_empty_source :
    moveCtor (emptyState : TreeState Nat) = none ∧
    (emptyState : TreeState Nat).root = .leaf ∧
    moveCtor (⟨t3, 3⟩ : TreeState Nat) = some (⟨t3, 3⟩, ⟨.leaf, 0⟩) ∧
    emptyQ (⟨.leaf, 0⟩ : TreeState Nat) = true := by
  decide

/-- Claim C7: inserting 1,2,3,4,5 into an empty tree gives root 1 with
children 2,3 and grandchildren 4,5 under node 2, and on this tree
`depth 5 = 2`, `height 1 = 2`, `bfsearch 4` succeeds and `dfsearch 6`
fails. -/
theorem c7_concrete_insert_scenario :
    List.foldl insert (emptyState : TreeState Nat) [1, 2, 3, 4, 5] = ⟨t5, 5⟩ ∧
    depth ⟨t5, 5⟩ 5 = 2 ∧ height ⟨t5, 5⟩ 1 = 2 ∧
    bfsearch ⟨t5, 5⟩ 4 = true ∧ dfsearch ⟨t5, 5⟩ 6 = false := by
  refine ⟨?_, by decide, by decide, ?_, ?_⟩
  · simp [insert, insertScan, emptyState, placeAt, t5]
  · simp [bfsearch, bfsearchAux, pushNode, t5]
  · simp [dfsearch, dfsearchLoop, t5]

theorem depth_not_contains [DecidableEq α] (s : TreeState α) (x : α)
    (hc : containsB x s.root = false) : depth s x = -1 := by
  obtain ⟨root, sz⟩ := s
  cases root with
  | leaf => rfl
  | node v l r =>
    simp only [containsB, Bool.or_eq_false_iff, decide_eq_false_iff_not] at hc
    obtain ⟨⟨h1, h2⟩, h3⟩ := hc
    show depth _ _ = -1
    simp [depth, h1, getDepth_not_contains h2, getDepth_not_contains h3]

theorem height_not_contains [DecidableEq α] (s : TreeState α) (x : α)
    (hc : containsB x s.root = false) : height s x = -1 := by
  obtain ⟨root, sz⟩ := s
  cases root with
  | leaf => rfl
  | node v l r =>
    show height _ _ = -1
    simp only [height]
    exact getHeight_not_contains hc 0

/-- Claim C8: absence is not an error — for an element not stored in the
tree, both searches answer false, `remove` leaves the state untouched, and
`depth`/`height` answer the sentinel -1; the empty tree answers -1 as well,
with no distinction between the two situations. -/
theorem c8_absence_is_not_error [DecidableEq α] (s : TreeState α) (x : α)
    (hc : containsB x s.root = false) :
    bfsearch s x = false ∧ dfsearch s x = false ∧ remove s x = s ∧
    depth s x = -1 ∧ height s x = -1 ∧
    depth (emptyState : TreeState α) x = -1 ∧
    height (emptyState : TreeState α) x = -1 := by
  refine ⟨?_, ?_, remove_not_contains s x hc, depth_not_contains s x hc,
    height_not_contains s x hc, rfl, rfl⟩
  · rw [bfsearch_contains, hc]
  · rw [dfsearch_contains, hc]

/-- Claim C8 witness: the element 7 against the three-node tree. -/
theorem c8_absence_is_not_error_witness :
    bfsearch ⟨t3, 3⟩ 7 = false ∧ dfsearch ⟨t3, 3⟩ 7 = false ∧
    remove ⟨t3, 3⟩ 7 = ⟨t3, 3⟩ ∧
    depth ⟨t3, 3⟩ 7 = -1 ∧ height ⟨t3, 3⟩ 7 = -1 ∧
    depth (emptyState : TreeState Nat) 7 = -1 ∧
    height (emptyState : TreeState Nat) 7 = -1 :=
  c8_absence_is_not_error ⟨t3, 3⟩ 7 (by decide)

/-- Claim C9: `bfsearch` and `dfsearch` agree on every tree and element, and
both answer exactly whether the element is stored at some node; on the empty
tree both answer false. -/
theorem c9_search_agreement [DecidableEq α] (s : TreeState α) (x : α) :
    bfsearch s x = dfsearch s x ∧ bfsearch s x = containsB x s.root ∧
    dfsearch s x = containsB x s.root ∧
    bfsearch (emptyState : TreeState α) x = false ∧
    dfsearch (emptyState : TreeState α) x = false := by
  refine ⟨?_, bfsearch_contains s x, dfsearch_contains s x, rfl, rfl⟩
  rw [bfsearch_contains, dfsearch_contains]

end BinaryTree
